import Mathlib

/-!
Verification of the in-memory student/grade registry from
`src/lecture_3/student_grade_analyzer.py`.

The Python module is shallowly embedded: Python `str` values become Lean
`String` (a list of characters), Python `int` becomes `Int`, the mutable
`students` list becomes an explicit `List Student` threaded through each
operation, interactive `input()` calls become explicit argument streams
(one string per prompt answer), and `print` output relevant to the claims
becomes explicit result values.  Floating-point averages are modelled with
`ℚ`: every quantity the claims mention (sums, counts, their quotients) is
produced by exact arithmetic in the source examples, and display rounding
is out of scope.
-/

/-- Model of Python's whitespace class used by `str.strip()` (the ASCII
whitespace characters; the registry code never stores other whitespace). -/
def pyIsSpace (c : Char) : Bool :=
  c = ' ' || c = '\t' || c = '\n' || c = '\r' || c = '\x0b' || c = '\x0c'

/-- Strip leading and trailing whitespace from a character list, as
Python's `str.strip()` does. -/
def stripChars (l : List Char) : List Char :=
  ((l.dropWhile pyIsSpace).reverse.dropWhile pyIsSpace).reverse

/-- Python's `str.strip()`. -/
def pyStrip (s : String) : String :=
  ⟨stripChars s.data⟩

/-- Python's `str.lower()` (ASCII case folding; the program's data is
ASCII text). -/
def pyLower (s : String) : String :=
  ⟨s.data.map Char.toLower⟩

/-- Digit/underscore body check of CPython's base-10 `int(str)` grammar,
after the first character: an underscore may appear only between digits. -/
def pyDigitsTail : List Char → Bool
  | [] => true
  | '_' :: [] => false
  | '_' :: c :: r => c.isDigit && pyDigitsTail r
  | c :: r => c.isDigit && pyDigitsTail r

/-- A nonempty digit sequence with underscores allowed only between
digits, as CPython's `int(str)` accepts. -/
def pyDigits : List Char → Bool
  | [] => false
  | c :: r => c.isDigit && pyDigitsTail r

/-- Numeric value of a digit sequence (underscores already removed). -/
def digitsVal (l : List Char) : Nat :=
  l.foldl (fun n c => n * 10 + (c.toNat - 48)) 0

/-- Magnitude part of `int(str)`: `none` models a raised `ValueError`. -/
def pyIntMag (l : List Char) : Option Nat :=
  if pyDigits l then some (digitsVal (l.filter (fun c => c ≠ '_'))) else none

/-- Python's `int(str)` in base 10: surrounding whitespace is ignored, an
optional sign precedes the digits; failure models `ValueError`. -/
def pyInt (s : String) : Option Int :=
  match stripChars s.data with
  | '+' :: r => (pyIntMag r).map (fun n => (n : Int))
  | '-' :: r => (pyIntMag r).map (fun n => -(n : Int))
  | r => (pyIntMag r).map (fun n => (n : Int))

/-- A student record: `name` and the ordered `grades` list, as the
`Student` TypedDict of the source. -/
structure Student where
  name : String
  grades : List Int
deriving DecidableEq, Repr

/-- The predicate `find_student` tests on each record: the stored name is
lowercased (the source does not strip it) and compared with the stripped,
lowercased input name. -/
def nameMatches (input : String) (s : Student) : Bool :=
  pyLower s.name == pyLower (pyStrip input)

/-- `find_student(students, name)`: first record whose lowercased stored
name equals the stripped, lowercased input, else `None`. -/
def find_student (students : List Student) (name : String) : Option Student :=
  students.find? (nameMatches name)

/-- Reported outcome of `add_new_student` (its `print` messages). -/
inductive AddStudentResult where
  | emptyName
  | duplicateName (name : String)
  | added (name : String)
deriving DecidableEq, Repr

/-- `add_new_student(students)`, with the `input()` answer made an
explicit argument.  Returns the registry after the call together with the
reported outcome. -/
def add_new_student (students : List Student) (rawName : String) :
    List Student × AddStudentResult :=
  let name := pyStrip rawName
  if name = "" then
    (students, .emptyName)
  else
    match find_student students name with
    | some _ => (students, .duplicateName name)
    | none => (students ++ [⟨name, []⟩], .added name)

/-- What happened to one non-sentinel grade token inside the input loop of
`add_grades_for_student`: appended, or rejected with one of the two
per-token messages. -/
inductive TokenOutcome where
  | accepted (g : Int)
  | invalidFormat
  | outOfRange
deriving DecidableEq, Repr

/-- One token is a sentinel when, stripped and lowercased, it is `done`. -/
def isDone (tok : String) : Bool :=
  pyLower (pyStrip tok) == "done"

/-- The `while True` grade-entry loop of `add_grades_for_student`: consume
tokens until the sentinel, appending in-range integers to `grades` and
logging one outcome per processed token.  The Python loop blocks for more
input when the stream runs dry; the embedding simply stops there, which is
irrelevant for streams containing the sentinel. -/
def grade_loop : List String → List Int → List Int × List TokenOutcome
  | [], grades => (grades, [])
  | tok :: rest, grades =>
    if isDone tok then
      (grades, [])
    else
      match pyInt (pyStrip tok) with
      | none =>
        let r := grade_loop rest grades
        (r.1, .invalidFormat :: r.2)
      | some g =>
        if 0 ≤ g ∧ g ≤ 100 then
          let r := grade_loop rest (grades ++ [g])
          (r.1, .accepted g :: r.2)
        else
          let r := grade_loop rest grades
          (r.1, .outOfRange :: r.2)

/-- Replace the first record satisfying `p` using `f`; models the source's
in-place mutation of the record object returned by `find_student`. -/
def updateFirst (p : Student → Bool) (f : Student → Student) :
    List Student → List Student
  | [] => []
  | s :: rest => if p s then f s :: rest else s :: updateFirst p f rest

/-- Reported outcome of `add_grades_for_student`. -/
inductive AddGradesResult where
  | emptyRegistry
  | studentNotFound (name : String)
  | updated (name : String) (count : Nat) (log : List TokenOutcome)
deriving DecidableEq, Repr

/-- `add_grades_for_student(students)`, with the two kinds of `input()`
answers (the student name and the grade-token stream) made explicit
arguments.  Returns the registry after the call and the reported
outcome; `count` is the final grade count minus the initial one. -/
def add_grades_for_student (students : List Student) (rawName : String)
    (tokens : List String) : List Student × AddGradesResult :=
  if students = [] then
    (students, .emptyRegistry)
  else
    let name := pyStrip rawName
    match find_student students name with
    | none => (students, .studentNotFound name)
    | some s =>
      let r := grade_loop tokens s.grades
      (updateFirst (nameMatches name) (fun t => { t with grades := r.1 }) students,
       .updated s.name (r.1.length - s.grades.length) r.2)

/-- Average of a grade list as an exact rational (`sum(grades)/len(grades)`;
meaningful only for nonempty lists, exactly where the source computes it). -/
def avg (grades : List Int) : ℚ :=
  ((grades.sum : ℤ) : ℚ) / (grades.length : ℚ)

/-- The per-student report line of `show_report`: the average, or `none`
modelling the `ZeroDivisionError` branch that prints `N/A`. -/
def studentEntry (s : Student) : String × Option ℚ :=
  (s.name, if s.grades = [] then none else some (avg s.grades))

/-- The report loop of `show_report`, threading the registry through the
traversal: each record is read, its line computed, and the record left in
place (the source loop contains no mutating statement). -/
def report_scan : List Student → List Student × List (String × Option ℚ)
  | [] => ([], [])
  | s :: rest =>
    let r := report_scan rest
    (s :: r.1, studentEntry s :: r.2)

/-- Aggregate block of the report. -/
structure ReportStats where
  maxAvg : ℚ
  minAvg : ℚ
  overallAvg : ℚ
deriving DecidableEq, Repr

/-- What `show_report` prints: the `NoStudents` message, or the per-student
lines plus, when at least one average exists, the aggregate statistics
(`stats = none` models the `No grades have been added yet.` branch). -/
inductive Report where
  | noStudents
  | lines (entries : List (String × Option ℚ)) (stats : Option ReportStats)
deriving DecidableEq, Repr

/-- Python's `max(list)` / `min(list)` on a nonempty list, as a fold over
the tail starting from the head. -/
def listMax (a : ℚ) (l : List ℚ) : ℚ := l.foldl max a

/-- See `listMax`. -/
def listMin (a : ℚ) (l : List ℚ) : ℚ := l.foldl min a

/-- `show_report(students)` as a pure value, including the registry it
leaves behind (threaded through `report_scan`). -/
def show_report_op (students : List Student) : List Student × Report :=
  if students = [] then
    (students, .noStudents)
  else
    let r := report_scan students
    let averages := r.2.filterMap (fun e => e.2)
    match averages with
    | [] => (r.1, .lines r.2 none)
    | a :: rest =>
      (r.1, .lines r.2 (some ⟨listMax a rest, listMin a rest,
        averages.sum / (averages.length : ℚ)⟩))

/-- The report alone. -/
def show_report (students : List Student) : Report :=
  (show_report_op students).2

/-- Python's `max(iterable, key=avg)`: scan keeping the current best,
replacing it only on a strictly larger key, so the first maximal element
wins.  `best` is the element seen first. -/
def maxByAvg : Student → List Student → Student
  | best, [] => best
  | best, s :: rest => maxByAvg (if avg best.grades < avg s.grades then s else best) rest

/-- The list comprehension `[s for s in students if s["grades"]]`, threading
the registry through the read-only traversal. -/
def top_scan : List Student → List Student × List Student
  | [] => ([], [])
  | s :: rest =>
    let r := top_scan rest
    (s :: r.1, if s.grades = [] then r.2 else s :: r.2)

/-- What `find_top_performer` prints. -/
inductive TopResult where
  | noStudents
  | noGradesAvailable
  | top (name : String) (average : ℚ)
deriving DecidableEq, Repr

/-- `find_top_performer(students)` as a pure value, including the registry
it leaves behind. -/
def find_top_performer_op (students : List Student) : List Student × TopResult :=
  if students = [] then
    (students, .noStudents)
  else
    let r := top_scan students
    match r.2 with
    | [] => (r.1, .noGradesAvailable)
    | s :: rest =>
      let t := maxByAvg s rest
      (r.1, .top t.name (avg t.grades))

/-- The result alone. -/
def find_top_performer (students : List Student) : TopResult :=
  (find_top_performer_op students).2

/-- Loop state of the driver (`main`). -/
inductive LoopState where
  | running
  | exiting
deriving DecidableEq, Repr

/-- What one driver iteration reports. -/
inductive MenuOutcome where
  | invalidChoice
  | ranAddStudent (r : AddStudentResult)
  | ranAddGrades (r : AddGradesResult)
  | ranReport (r : Report)
  | ranTop (r : TopResult)
  | exited
deriving DecidableEq, Repr

/-- One iteration of the `while True` loop in `main`: parse the menu line
(`int(choice_str)` after `strip`), dispatch, and report the next loop
state.  The `input()` answers a dispatched operation would consume are the
explicit `nameInput`/`tokenInput` arguments. -/
def main_step (students : List Student) (line : String) (nameInput : String)
    (tokenInput : List String) : List Student × LoopState × MenuOutcome :=
  match pyInt (pyStrip line) with
  | none => (students, .running, .invalidChoice)
  | some c =>
    if c = 1 then
      let r := add_new_student students nameInput
      (r.1, .running, .ranAddStudent r.2)
    else if c = 2 then
      let r := add_grades_for_student students nameInput tokenInput
      (r.1, .running, .ranAddGrades r.2)
    else if c = 3 then
      let r := show_report_op students
      (r.1, .running, .ranReport r.2)
    else if c = 4 then
      let r := find_top_performer_op students
      (r.1, .running, .ranTop r.2)
    else if c = 5 then
      (students, .exiting, .exited)
    else
      (students, .running, .invalidChoice)

/-- Registries reachable from the empty initial registry by any sequence of
`add_new_student` and `add_grades_for_student` calls, with arbitrary
interactive answers. -/
inductive Reachable : List Student → Prop
  | init : Reachable []
  | addStudent (students : List Student) (rawName : String) :
      Reachable students → Reachable (add_new_student students rawName).1
  | addGrades (students : List Student) (rawName : String) (tokens : List String) :
      Reachable students → Reachable (add_grades_for_student students rawName tokens).1

/-- Outcome the loop assigns to one non-sentinel token (used to state the
characterization of `grade_loop`, computed by the same parse as the code). -/
def tokenOutcomeOf (tok : String) : TokenOutcome :=
  match pyInt (pyStrip tok) with
  | none => .invalidFormat
  | some g => if 0 ≤ g ∧ g ≤ 100 then .accepted g else .outOfRange

/-- The grade a token contributes, if any. -/
def acceptedOf (tok : String) : Option Int :=
  match pyInt (pyStrip tok) with
  | none => none
  | some g => if 0 ≤ g ∧ g ≤ 100 then some g else none

/-- Tokens the loop actually processes: those before the first sentinel. -/
def nonSentinel (tokens : List String) : List String :=
  tokens.takeWhile (fun t => !isDone t)

/-- Closed form of the `averages` accumulator of `show_report`: the
per-student averages of exactly the students with at least one grade, in
registry order (proved equal to what the code collects). -/
def avgList (students : List Student) : List ℚ :=
  (students.filter (fun s => !s.grades.isEmpty)).map (fun s => avg s.grades)

/-- The element exposed at the head after `dropWhile` fails the predicate. -/
theorem dropWhile_head_false (p : Char → Bool) (l : List Char) (c : Char) (t : List Char)
    (h : l.dropWhile p = c :: t) : p c = false := by
  induction l with
  | nil => simp [List.dropWhile] at h
  | cons a l ih =>
    by_cases hp : p a
    · rw [List.dropWhile_cons_of_pos hp] at h
      exact ih h
    · rw [List.dropWhile_cons_of_neg hp] at h
      cases h
      exact Bool.eq_false_iff.mpr hp

/-- Stripping is idempotent on character lists. -/
theorem stripChars_idem (l : List Char) : stripChars (stripChars l) = stripChars l := by
  show List.rdropWhile pyIsSpace
      ((List.rdropWhile pyIsSpace (l.dropWhile pyIsSpace)).dropWhile pyIsSpace) =
    List.rdropWhile pyIsSpace (l.dropWhile pyIsSpace)
  have hzy : List.rdropWhile pyIsSpace (l.dropWhile pyIsSpace) <+: l.dropWhile pyIsSpace :=
    List.rdropWhile_prefix _ _
  have hdz : (List.rdropWhile pyIsSpace (l.dropWhile pyIsSpace)).dropWhile pyIsSpace =
      List.rdropWhile pyIsSpace (l.dropWhile pyIsSpace) := by
    obtain ⟨r, hr⟩ := hzy
    cases hz : List.rdropWhile pyIsSpace (l.dropWhile pyIsSpace) with
    | nil => simp
    | cons c t =>
      have hy : l.dropWhile pyIsSpace = c :: (t ++ r) := by
        rw [← hr, hz]
        rfl
      have hc := dropWhile_head_false pyIsSpace l c (t ++ r) hy
      rw [List.dropWhile_cons_of_neg (by simp [hc])]
  rw [hdz, List.rdropWhile_idempotent]

/-- `str.strip()` is idempotent. -/
theorem pyStrip_idem (s : String) : pyStrip (pyStrip s) = pyStrip s :=
  congrArg String.mk (stripChars_idem s.data)

/-- Boolean match unfolded to a propositional equation on normalized names. -/
theorem nameMatches_iff (input : String) (s : Student) :
    nameMatches input s = true ↔ pyLower s.name = pyLower (pyStrip input) := by
  simp [nameMatches]

/-- A successful `find_student` splits the registry at the first matching
record: everything before it fails the normalized-name comparison. -/
theorem find_student_eq_some (students : List Student) (name : String) (r : Student)
    (h : find_student students name = some r) :
    ∃ l₁ l₂, students = l₁ ++ r :: l₂ ∧
      pyLower r.name = pyLower (pyStrip name) ∧
      ∀ s ∈ l₁, pyLower s.name ≠ pyLower (pyStrip name) := by
  induction students with
  | nil => simp [find_student] at h
  | cons a t ih =>
    rw [find_student] at h
    by_cases ha : nameMatches name a
    · rw [List.find?_cons_of_pos _ ha] at h
      injection h with h
      subst h
      exact ⟨[], t, rfl, (nameMatches_iff name a).mp ha, by simp⟩
    · rw [List.find?_cons_of_neg _ ha] at h
      obtain ⟨l₁, l₂, hsplit, hr, hbefore⟩ := ih h
      refine ⟨a :: l₁, l₂, by rw [hsplit]; rfl, hr, ?_⟩
      intro s hs
      rcases List.mem_cons.mp hs with hs | hs
      · subst hs
        exact fun hc => ha ((nameMatches_iff name s).mpr hc)
      · exact hbefore s hs

/-- A failed `find_student` means no record matches. -/
theorem find_student_eq_none (students : List Student) (name : String)
    (h : find_student students name = none) :
    ∀ s ∈ students, pyLower s.name ≠ pyLower (pyStrip name) := by
  intro s hs hc
  have := List.find?_eq_none.mp h s hs
  exact this ((nameMatches_iff name s).mpr hc)

/-- `find_student` succeeds exactly when some record matches. -/
theorem find_student_isSome (students : List Student) (name : String) :
    (find_student students name).isSome ↔
      ∃ s ∈ students, pyLower s.name = pyLower (pyStrip name) := by
  rw [find_student, List.find?_isSome]
  constructor
  · rintro ⟨s, hs, hm⟩
    exact ⟨s, hs, (nameMatches_iff name s).mp hm⟩
  · rintro ⟨s, hs, hm⟩
    exact ⟨s, hs, (nameMatches_iff name s).mpr hm⟩

/-- C7, counterexample: the stored record name is compared lowercased but
NOT trimmed, so on a registry holding the name `" Ann "` the lookup for
`"Ann"` returns absence even though the two names agree after trimming and
lowercasing — the claim's description of the comparison fails. -/
theorem find_student_stored_trim_cex :
    pyLower (pyStrip " Ann ") = pyLower (pyStrip "Ann") ∧
    find_student [⟨" Ann ", []⟩] "Ann" = none := by decide

/-- C7, amended: `find_student` returns the first record whose lowercased
(untrimmed) stored name equals the trimmed, lowercased input, and absence
when no record satisfies that comparison; the registry is not consumed or
altered (the embedding is a pure function of it). -/
theorem find_student_spec (students : List Student) (name : String) :
    (∀ r, find_student students name = some r →
      ∃ l₁ l₂, students = l₁ ++ r :: l₂ ∧
        pyLower r.name = pyLower (pyStrip name) ∧
        ∀ s ∈ l₁, pyLower s.name ≠ pyLower (pyStrip name)) ∧
    (find_student students name = none →
      ∀ s ∈ students, pyLower s.name ≠ pyLower (pyStrip name)) :=
  ⟨fun r h => find_student_eq_some students name r h,
   find_student_eq_none students name⟩

/-- C7 witness: on a concrete registry the lookup for `" ANN"` returns the
first of the two lowercase-matching records. -/
theorem find_student_spec_witness :
    ∃ l₁ l₂, ([⟨"Ann", []⟩, ⟨"ann", [1]⟩] : List Student) =
        l₁ ++ (⟨"Ann", []⟩ : Student) :: l₂ ∧
      pyLower (Student.mk "Ann" []).name = pyLower (pyStrip " ANN") ∧
      ∀ s ∈ l₁, pyLower s.name ≠ pyLower (pyStrip " ANN") :=
  (find_student_spec [⟨"Ann", []⟩, ⟨"ann", [1]⟩] " ANN").1 ⟨"Ann", []⟩ (by decide)

/-- C3, counterexample: with a stored name `" Bob "` (untrimmed), adding
`"Bob"` succeeds and changes the registry although the existing record's
trimmed-and-lowercased name equals the normalized input — the claim's
duplicate test (which trims the stored name) does not describe the code. -/
theorem add_new_student_trim_cex :
    pyLower (pyStrip " Bob ") = pyLower (pyStrip "Bob") ∧
    add_new_student [⟨" Bob ", []⟩] "Bob" =
      ([⟨" Bob ", []⟩, ⟨"Bob", []⟩], .added "Bob") := by decide

/-- C3, amended: `add_new_student` fails with `emptyName` iff the trimmed
input is empty; otherwise it fails with `duplicateName` iff some existing
record's LOWERCASED (untrimmed) stored name equals the trimmed, lowercased
input; both failures leave the registry unchanged; otherwise it appends
one record with the trimmed, original-case name and empty grades. -/
theorem add_new_student_spec (students : List Student) (rawName : String) :
    ((add_new_student students rawName).2 = .emptyName ↔ pyStrip rawName = "") ∧
    (pyStrip rawName ≠ "" →
      ((add_new_student students rawName).2 = .duplicateName (pyStrip rawName) ↔
        ∃ s ∈ students, pyLower s.name = pyLower (pyStrip rawName))) ∧
    ((add_new_student students rawName).2 = .emptyName ∨
        (∃ n, (add_new_student students rawName).2 = .duplicateName n) →
      (add_new_student students rawName).1 = students) ∧
    (pyStrip rawName ≠ "" →
      (∀ s ∈ students, pyLower s.name ≠ pyLower (pyStrip rawName)) →
      add_new_student students rawName =
        (students ++ [⟨pyStrip rawName, []⟩], .added (pyStrip rawName))) := by
  by_cases hempty : pyStrip rawName = ""
  · have hres : add_new_student students rawName = (students, .emptyName) := by
      simp [add_new_student, hempty]
    rw [hres]
    refine ⟨by simp [hempty], fun hne => absurd hempty hne, fun _ => rfl,
      fun hne _ => absurd hempty hne⟩
  · cases hfind : find_student students (pyStrip rawName) with
    | some s =>
      have hres : add_new_student students rawName =
          (students, .duplicateName (pyStrip rawName)) := by
        simp [add_new_student, hempty, hfind]
      obtain ⟨l₁, l₂, hsplit, hmatch, -⟩ :=
        find_student_eq_some students (pyStrip rawName) s hfind
      have hsmem : s ∈ students := by
        rw [hsplit]
        exact List.mem_append_right _ (List.mem_cons_self _ _)
      have hmatch' : pyLower s.name = pyLower (pyStrip rawName) := by
        rw [hmatch, pyStrip_idem]
      rw [hres]
      refine ⟨by simp [hempty], fun _ => ⟨fun _ => ⟨s, hsmem, hmatch'⟩, fun _ => rfl⟩,
        fun _ => rfl, fun _ hnone => absurd hmatch' (hnone s hsmem)⟩
    | none =>
      have hres : add_new_student students rawName =
          (students ++ [⟨pyStrip rawName, []⟩], .added (pyStrip rawName)) := by
        simp [add_new_student, hempty, hfind]
      have hnone : ∀ s ∈ students, pyLower s.name ≠ pyLower (pyStrip rawName) := by
        intro s hs
        have := find_student_eq_none students (pyStrip rawName) hfind s hs
        rwa [pyStrip_idem] at this
      rw [hres]
      refine ⟨by simp [hempty], fun _ => ⟨by simp, ?_⟩, ?_, fun _ _ => rfl⟩
      · rintro ⟨s, hs, hm⟩
        exact absurd hm (hnone s hs)
      · rintro (h | ⟨n, h⟩) <;> simp at h

/-- C3 witness: adding `" Ann "` to a registry holding only `"Bob"` strips
the name and appends a fresh record with no grades. -/
theorem add_new_student_spec_witness :
    add_new_student [⟨"Bob", []⟩] " Ann " =
      ([⟨"Bob", []⟩, ⟨pyStrip " Ann ", []⟩], .added (pyStrip " Ann ")) :=
  (add_new_student_spec [⟨"Bob", []⟩] " Ann ").2.2.2 (by decide) (by decide)

/-- Closed form of the grade-entry loop: the processed tokens are exactly
those before the first sentinel; each contributes its outcome to the log,
and the accepted ones are appended in order. -/
theorem grade_loop_eq (tokens : List String) (grades : List Int) :
    grade_loop tokens grades =
      (grades ++ (nonSentinel tokens).filterMap acceptedOf,
       (nonSentinel tokens).map tokenOutcomeOf) := by
  induction tokens generalizing grades with
  | nil => simp [grade_loop, nonSentinel]
  | cons tok rest ih =>
    by_cases hd : isDone tok
    · simp [grade_loop, hd, nonSentinel, List.takeWhile_cons]
    · cases hp : pyInt (pyStrip tok) with
      | none =>
        simp [grade_loop, hd, hp, nonSentinel, List.takeWhile_cons, ih,
          acceptedOf, tokenOutcomeOf]
      | some g =>
        by_cases hr : 0 ≤ g ∧ g ≤ 100
        · simp [grade_loop, hd, hp, hr, nonSentinel, List.takeWhile_cons, ih,
            acceptedOf, tokenOutcomeOf]
        · simp [grade_loop, hd, hp, hr, nonSentinel, List.takeWhile_cons, ih,
            acceptedOf, tokenOutcomeOf]

/-- `updateFirst` splits the list at the first element satisfying `p`. -/
theorem updateFirst_split (p : Student → Bool) (f : Student → Student)
    (l : List Student) (s : Student) (hfind : l.find? p = some s) :
    ∃ l₁ l₂, l = l₁ ++ s :: l₂ ∧ updateFirst p f l = l₁ ++ f s :: l₂ ∧
      (∀ x ∈ l₁, p x = false) ∧ p s = true := by
  induction l with
  | nil => simp at hfind
  | cons a t ih =>
    by_cases ha : p a
    · rw [List.find?_cons_of_pos _ ha] at hfind
      injection hfind with hfind
      subst hfind
      exact ⟨[], t, rfl, by simp [updateFirst, ha], by simp, ha⟩
    · rw [List.find?_cons_of_neg _ ha] at hfind
      obtain ⟨l₁, l₂, hsplit, hupd, hbefore, hs⟩ := ih hfind
      refine ⟨a :: l₁, l₂, by rw [hsplit]; rfl, ?_, ?_, hs⟩
      · simp only [updateFirst, if_neg ha, hupd]
        rfl
      · intro x hx
        rcases List.mem_cons.mp hx with hx | hx
        · subst hx
          exact Bool.eq_false_iff.mpr ha
        · exact hbefore x hx

/-- Looking up the same name after `updateFirst` with a name-preserving
update returns the updated record. -/
theorem find_student_updateFirst (students : List Student) (name : String)
    (f : Student → Student) (hf : ∀ t, (f t).name = t.name) (s : Student)
    (hfind : find_student students name = some s) :
    find_student (updateFirst (nameMatches name) f students) name = some (f s) := by
  induction students with
  | nil => simp [find_student] at hfind
  | cons a t ih =>
    by_cases ha : nameMatches name a
    · rw [find_student, List.find?_cons_of_pos _ ha] at hfind
      injection hfind with hfind
      subst hfind
      have hfa : nameMatches name (f a) = true := by
        rw [nameMatches] at ha ⊢
        rw [hf a]
        exact ha
      rw [updateFirst, if_pos ha, find_student, List.find?_cons_of_pos _ hfa]
    · rw [find_student, List.find?_cons_of_neg _ ha] at hfind
      rw [updateFirst, if_neg ha, find_student, List.find?_cons_of_neg _ ha]
      exact ih hfind

/-- C2: when the lookup finds the target and the token stream contains the
case-insensitive sentinel `done`, the call appends exactly the tokens that
parse as integers in `[0, 100]` (in order) to that student's grades, logs
`invalidFormat` for unparsable tokens and `outOfRange` for out-of-range
ones without aborting, and reports post-count minus pre-count, which is
the number of accepted tokens. -/
theorem add_grades_spec (students : List Student) (rawName : String)
    (tokens : List String) (s : Student)
    (hfind : find_student students (pyStrip rawName) = some s)
    (hdone : tokens.any isDone = true) :
    add_grades_for_student students rawName tokens =
      (updateFirst (nameMatches (pyStrip rawName))
        (fun t => { t with
          grades := s.grades ++ (nonSentinel tokens).filterMap acceptedOf }) students,
       .updated s.name ((nonSentinel tokens).filterMap acceptedOf).length
         ((nonSentinel tokens).map tokenOutcomeOf)) ∧
    find_student (add_grades_for_student students rawName tokens).1 (pyStrip rawName) =
      some { s with grades := s.grades ++ (nonSentinel tokens).filterMap acceptedOf } := by
  have hne : students ≠ [] := by
    intro h
    subst h
    simp [find_student] at hfind
  have hres : add_grades_for_student students rawName tokens =
      (updateFirst (nameMatches (pyStrip rawName))
        (fun t => { t with grades := (grade_loop tokens s.grades).1 }) students,
       .updated s.name ((grade_loop tokens s.grades).1.length - s.grades.length)
         (grade_loop tokens s.grades).2) := by
    simp [add_grades_for_student, hne, hfind]
  constructor
  · rw [hres]
    simp only [grade_loop_eq]
    simp
  · have h1 : (add_grades_for_student students rawName tokens).1 =
        updateFirst (nameMatches (pyStrip rawName))
          (fun t => { t with grades := (grade_loop tokens s.grades).1 }) students := by
      rw [hres]
    rw [h1, find_student_updateFirst students (pyStrip rawName)
      (fun t => { t with grades := (grade_loop tokens s.grades).1 })
      (fun t => rfl) s hfind]
    simp [grade_loop_eq]

/-- C2 witness: for student `Ann` with grades `[10]` and the stream
`50, abc, 150, done, 99`, exactly `50` is appended, the log shows one
rejection of each kind, the reported count is `1`, and the token after the
sentinel is ignored. -/
theorem add_grades_spec_witness :
    add_grades_for_student [⟨"Ann", [10]⟩] " ann" ["50", "abc", "150", "done", "99"] =
      (updateFirst (nameMatches (pyStrip " ann"))
        (fun t => { t with
          grades := [10] ++
            (nonSentinel ["50", "abc", "150", "done", "99"]).filterMap acceptedOf })
        [⟨"Ann", [10]⟩],
       .updated "Ann"
         ((nonSentinel ["50", "abc", "150", "done", "99"]).filterMap acceptedOf).length
         ((nonSentinel ["50", "abc", "150", "done", "99"]).map tokenOutcomeOf)) :=
  (add_grades_spec [⟨"Ann", [10]⟩] " ann" ["50", "abc", "150", "done", "99"]
    ⟨"Ann", [10]⟩ (by decide) (by decide)).1

/-- C8: when `add_grades_for_student` fails (empty registry or missing
student) the registry is unchanged; when it reports an update, the
registry splits around the first matching record, whose name is kept and
only whose grades are replaced, with every record before and after it, the
length, and the order untouched. -/
theorem add_grades_frame (students : List Student) (rawName : String)
    (tokens : List String) :
    ((add_grades_for_student students rawName tokens).2 = .emptyRegistry ∨
      (∃ n, (add_grades_for_student students rawName tokens).2 = .studentNotFound n) →
      (add_grades_for_student students rawName tokens).1 = students) ∧
    (∀ n c log, (add_grades_for_student students rawName tokens).2 = .updated n c log →
      ∃ l₁ s gs l₂, students = l₁ ++ s :: l₂ ∧
        (add_grades_for_student students rawName tokens).1 =
          l₁ ++ (⟨s.name, gs⟩ : Student) :: l₂ ∧
        nameMatches (pyStrip rawName) s = true ∧
        ∀ x ∈ l₁, nameMatches (pyStrip rawName) x = false) := by
  by_cases hne : students = []
  · subst hne
    refine ⟨fun _ => rfl, fun n c log h => ?_⟩
    simp [add_grades_for_student] at h
  · cases hfind : find_student students (pyStrip rawName) with
    | none =>
      have hres : add_grades_for_student students rawName tokens =
          (students, .studentNotFound (pyStrip rawName)) := by
        simp [add_grades_for_student, hne, hfind]
      rw [hres]
      refine ⟨fun _ => rfl, fun n c log h => ?_⟩
      simp at h
    | some s =>
      have hres : add_grades_for_student students rawName tokens =
          (updateFirst (nameMatches (pyStrip rawName))
            (fun t => { t with grades := (grade_loop tokens s.grades).1 }) students,
           .updated s.name ((grade_loop tokens s.grades).1.length - s.grades.length)
             (grade_loop tokens s.grades).2) := by
        simp [add_grades_for_student, hne, hfind]
      rw [hres]
      constructor
      · rintro (h | ⟨n, h⟩) <;> simp at h
      · intro n c log h
        obtain ⟨l₁, l₂, hsplit, hupd, hbefore, hs⟩ :=
          updateFirst_split (nameMatches (pyStrip rawName))
            (fun t => { t with grades := (grade_loop tokens s.grades).1 }) students s hfind
        exact ⟨l₁, s, (grade_loop tokens s.grades).1, l₂, hsplit, hupd, hs, hbefore⟩

/-- C8 witness: a failing call on the empty registry is a no-op, and an
updating call on a two-student registry rewrites only the matched second
record, keeping its name and the other record in place. -/
theorem add_grades_frame_witness :
    (add_grades_for_student [] "x" []).1 = [] ∧
    (∃ l₁ s gs l₂, ([⟨"Al", [1]⟩, ⟨"Bo", [2]⟩] : List Student) = l₁ ++ s :: l₂ ∧
      (add_grades_for_student [⟨"Al", [1]⟩, ⟨"Bo", [2]⟩] "bo" ["50", "done"]).1 =
        l₁ ++ (⟨s.name, gs⟩ : Student) :: l₂ ∧
      nameMatches (pyStrip "bo") s = true ∧
      ∀ x ∈ l₁, nameMatches (pyStrip "bo") x = false) :=
  ⟨(add_grades_frame [] "x" []).1 (Or.inl (by decide)),
   (add_grades_frame [⟨"Al", [1]⟩, ⟨"Bo", [2]⟩] "bo" ["50", "done"]).2
     "Bo" 1 [.accepted 50] (by decide)⟩

/-- The report loop hands the registry back unchanged. -/
theorem report_scan_fst (l : List Student) : (report_scan l).1 = l := by
  induction l with
  | nil => rfl
  | cons s rest ih => simp [report_scan, ih]

/-- The report loop produces one entry per record, in order. -/
theorem report_scan_snd (l : List Student) : (report_scan l).2 = l.map studentEntry := by
  induction l with
  | nil => rfl
  | cons s rest ih => simp [report_scan, ih]

/-- The filter comprehension hands the registry back unchanged. -/
theorem top_scan_fst (l : List Student) : (top_scan l).1 = l := by
  induction l with
  | nil => rfl
  | cons s rest ih => simp [top_scan, ih]

/-- The filter comprehension selects the records with grades, in order. -/
theorem top_scan_snd (l : List Student) :
    (top_scan l).2 = l.filter (fun s => !s.grades.isEmpty) := by
  induction l with
  | nil => rfl
  | cons s rest ih =>
    by_cases h : s.grades = []
    · simp [top_scan, ih, h, List.filter_cons]
    · simp [top_scan, ih, h, List.filter_cons, List.isEmpty_iff]

/-- The defined averages collected by the report loop are `avgList`. -/
theorem entries_filterMap (students : List Student) :
    (students.map studentEntry).filterMap (fun e => e.2) = avgList students := by
  induction students with
  | nil => rfl
  | cons s rest ih =>
    by_cases h : s.grades = []
    · simp [studentEntry, avgList, h, List.filter_cons, ih]
    · simp only [List.map_cons, List.filterMap_cons, studentEntry, if_neg h]
      rw [ih]
      simp [avgList, List.filter_cons, List.isEmpty_iff, h]

/-- A left fold of `max` lands on one of the folded values. -/
theorem listMax_mem (a : ℚ) (l : List ℚ) : listMax a l ∈ a :: l := by
  induction l generalizing a with
  | nil => simp [listMax]
  | cons b t ih =>
    have hstep : listMax a (b :: t) = listMax (max a b) t := rfl
    rw [hstep]
    rcases List.mem_cons.mp (ih (max a b)) with h | h
    · rw [h]
      rcases max_choice a b with hm | hm <;> rw [hm] <;> simp
    · simp [h]

/-- A left fold of `max` bounds every folded value from above. -/
theorem le_listMax (a : ℚ) (l : List ℚ) : ∀ x ∈ a :: l, x ≤ listMax a l := by
  induction l generalizing a with
  | nil =>
    intro x hx
    rw [List.mem_singleton] at hx
    subst hx
    exact le_refl _
  | cons b t ih =>
    intro x hx
    have hstep : listMax a (b :: t) = listMax (max a b) t := rfl
    have hmaxle : max a b ≤ listMax (max a b) t :=
      ih (max a b) (max a b) (List.mem_cons_self _ _)
    rw [hstep]
    rcases List.mem_cons.mp hx with h | h
    · subst h
      exact le_trans (le_max_left _ _) hmaxle
    · rcases List.mem_cons.mp h with h2 | h2
      · subst h2
        exact le_trans (le_max_right _ _) hmaxle
      · exact ih (max a b) x (List.mem_cons_of_mem _ h2)

/-- A left fold of `min` lands on one of the folded values. -/
theorem listMin_mem (a : ℚ) (l : List ℚ) : listMin a l ∈ a :: l := by
  induction l generalizing a with
  | nil => simp [listMin]
  | cons b t ih =>
    have hstep : listMin a (b :: t) = listMin (min a b) t := rfl
    rw [hstep]
    rcases List.mem_cons.mp (ih (min a b)) with h | h
    · rw [h]
      rcases min_choice a b with hm | hm <;> rw [hm] <;> simp
    · simp [h]

/-- A left fold of `min` bounds every folded value from below. -/
theorem listMin_le (a : ℚ) (l : List ℚ) : ∀ x ∈ a :: l, listMin a l ≤ x := by
  induction l generalizing a with
  | nil =>
    intro x hx
    rw [List.mem_singleton] at hx
    subst hx
    exact le_refl _
  | cons b t ih =>
    intro x hx
    have hstep : listMin a (b :: t) = listMin (min a b) t := rfl
    have hminle : listMin (min a b) t ≤ min a b :=
      ih (min a b) (min a b) (List.mem_cons_self _ _)
    rw [hstep]
    rcases List.mem_cons.mp hx with h | h
    · subst h
      exact le_trans hminle (min_le_left _ _)
    · rcases List.mem_cons.mp h with h2 | h2
      · subst h2
        exact le_trans hminle (min_le_right _ _)
      · exact ih (min a b) x (List.mem_cons_of_mem _ h2)

/-- `avgList` is empty exactly when no student has a grade. -/
theorem avgList_eq_nil_iff (students : List Student) :
    avgList students = [] ↔ ∀ s ∈ students, s.grades = [] := by
  simp [avgList, List.filter_eq_nil_iff, List.isEmpty_iff]

/-- C10: `show_report` and `find_top_performer` are read-only: the
registry each operation hands back is the registry it received, record for
record (their loops, threaded through `report_scan` and `top_scan`, never
mutate). -/
theorem report_top_readonly (students : List Student) :
    (show_report_op students).1 = students ∧
    (find_top_performer_op students).1 = students := by
  constructor
  · by_cases h : students = []
    · simp [show_report_op, h]
    · simp only [show_report_op, if_neg h]
      split <;> simp [report_scan_fst]
  · by_cases h : students = []
    · simp [find_top_performer_op, h]
    · simp only [find_top_performer_op, if_neg h]
      split <;> simp [top_scan_fst]

/-- C6: for a nonempty registry the report lists one entry per student in
order; a student with no grades is reported `N/A` (`none`), never `0.0`;
and the aggregate block exists exactly when some student has a grade.  The
embedding is a total function, so no division by an empty grade list can
occur. -/
theorem show_report_na (students : List Student) (h : students ≠ []) :
    ∃ entries stats, show_report students = .lines entries stats ∧
      entries.length = students.length ∧
      (∀ (i : ℕ) (s : Student), students[i]? = some s → s.grades = [] →
        entries[i]? = some (s.name, none)) ∧
      (stats.isSome ↔ ∃ s ∈ students, s.grades ≠ []) := by
  have hidx : ∀ (i : ℕ) (s : Student), students[i]? = some s → s.grades = [] →
      (students.map studentEntry)[i]? = some (s.name, none) := by
    intro i s hi hg
    rw [List.getElem?_map, hi]
    simp [studentEntry, hg]
  cases hch : avgList students with
  | nil =>
    have hrep : show_report students = .lines (students.map studentEntry) none := by
      simp only [show_report, show_report_op, if_neg h, report_scan_snd,
        entries_filterMap, hch]
    refine ⟨students.map studentEntry, none, hrep, by simp, hidx, ?_⟩
    simp only [Option.isSome_none]
    constructor
    · intro hfalse
      exact absurd hfalse (by simp)
    · rintro ⟨s, hs, hg⟩
      exact absurd ((avgList_eq_nil_iff students).mp hch s hs) hg
  | cons a rest =>
    have hrep : show_report students = .lines (students.map studentEntry)
        (some ⟨listMax a rest, listMin a rest,
          (a :: rest).sum / (((a :: rest).length : ℕ) : ℚ)⟩) := by
      simp only [show_report, show_report_op, if_neg h, report_scan_snd,
        entries_filterMap, hch]
    refine ⟨students.map studentEntry, _, hrep, by simp, hidx, ?_⟩
    simp only [Option.isSome_some, true_iff]
    have hnotall : ¬ ∀ s ∈ students, s.grades = [] := by
      intro hall
      rw [← avgList_eq_nil_iff students] at hall
      rw [hall] at hch
      cases hch
    push_neg at hnotall
    exact hnotall

/-- C6 witness: a registry with one graded and one ungraded student shows
the ungraded one as `N/A` and still has an aggregate block. -/
theorem show_report_na_witness :
    ∃ entries stats,
      show_report [⟨"Ann", [70]⟩, ⟨"Bob", []⟩] = .lines entries stats ∧
      entries.length = ([⟨"Ann", [70]⟩, ⟨"Bob", []⟩] : List Student).length ∧
      (∀ (i : ℕ) (s : Student),
        ([⟨"Ann", [70]⟩, ⟨"Bob", []⟩] : List Student)[i]? = some s →
        s.grades = [] → entries[i]? = some (s.name, none)) ∧
      (stats.isSome ↔ ∃ s ∈ ([⟨"Ann", [70]⟩, ⟨"Bob", []⟩] : List Student),
        s.grades ≠ []) :=
  show_report_na [⟨"Ann", [70]⟩, ⟨"Bob", []⟩] (by decide)

/-- C1: when some student has a grade, the aggregate block's overall value
is the arithmetic mean of the per-student averages over exactly the
students with at least one grade (`avgList`), the max/min values are the
maximum and minimum of that same list, and on the skewed example
`A=[100]`, `B=[0,0,0,100]` the overall average is `62.5 = 125/2` — not
`20.0`, and not the pooled mean of the five raw grades, which is `40`. -/
theorem show_report_stats :
    (∀ students : List Student, (∃ s ∈ students, s.grades ≠ []) →
      ∃ entries mx mn, show_report students =
        .lines entries (some ⟨mx, mn,
          (avgList students).sum / (((avgList students).length : ℕ) : ℚ)⟩) ∧
        mx ∈ avgList students ∧ (∀ x ∈ avgList students, x ≤ mx) ∧
        mn ∈ avgList students ∧ (∀ x ∈ avgList students, mn ≤ x)) ∧
    show_report [⟨"A", [100]⟩, ⟨"B", [0, 0, 0, 100]⟩] =
      .lines [("A", some 100), ("B", some 25)] (some ⟨100, 25, 125 / 2⟩) ∧
    ((([100, 0, 0, 0, 100] : List Int).sum : ℚ) /
        (([100, 0, 0, 0, 100] : List Int).length : ℚ) = 40) ∧
    (125 / 2 : ℚ) ≠ 40 ∧ (125 / 2 : ℚ) ≠ 20 := by
  refine ⟨?_, ?_, by norm_num, by norm_num, by norm_num⟩
  · intro students h
    have hne : students ≠ [] := by
      rintro rfl
      simp at h
    cases hch : avgList students with
    | nil =>
      obtain ⟨s, hs, hg⟩ := h
      exact absurd ((avgList_eq_nil_iff students).mp hch s hs) hg
    | cons a rest =>
      have hrep : show_report students = .lines (students.map studentEntry)
          (some ⟨listMax a rest, listMin a rest,
            (a :: rest).sum / (((a :: rest).length : ℕ) : ℚ)⟩) := by
        simp only [show_report, show_report_op, if_neg hne, report_scan_snd,
          entries_filterMap, hch]
      exact ⟨students.map studentEntry, listMax a rest, listMin a rest, hrep,
        listMax_mem a rest, le_listMax a rest, listMin_mem a rest, listMin_le a rest⟩
  · have h1 : avg [100] = 100 := by norm_num [avg]
    have h2 : avg [0, 0, 0, 100] = 25 := by norm_num [avg]
    have h3 : max (100 : ℚ) 25 = 100 := by norm_num
    have h4 : min (100 : ℚ) 25 = 25 := by norm_num
    have h5 : (100 : ℚ) + 25 = 125 := by norm_num
    simp [show_report, show_report_op, report_scan, studentEntry, listMax,
      listMin, h1, h2, h3, h4, h5]

/-- C1 witness: the general part applied to a concrete one-student
registry. -/
theorem show_report_stats_witness :
    ∃ entries mx mn, show_report [⟨"C", [70, 80, 90]⟩] =
      .lines entries (some ⟨mx, mn,
        (avgList [⟨"C", [70, 80, 90]⟩]).sum /
          (((avgList [⟨"C", [70, 80, 90]⟩]).length : ℕ) : ℚ)⟩) ∧
      mx ∈ avgList [⟨"C", [70, 80, 90]⟩] ∧
      (∀ x ∈ avgList [⟨"C", [70, 80, 90]⟩], x ≤ mx) ∧
      mn ∈ avgList [⟨"C", [70, 80, 90]⟩] ∧
      (∀ x ∈ avgList [⟨"C", [70, 80, 90]⟩], mn ≤ x) :=
  show_report_stats.1 [⟨"C", [70, 80, 90]⟩] (by decide)

/-- Python's `max(…, key=…)` keeps the first element whose key is maximal:
the result splits `best :: l` so that everything strictly before it has a
strictly smaller average and nothing in the list has a larger one. -/
theorem maxByAvg_first (best : Student) (l : List Student) :
    ∃ l₁ l₂, best :: l = l₁ ++ (maxByAvg best l) :: l₂ ∧
      (∀ x ∈ best :: l, avg x.grades ≤ avg (maxByAvg best l).grades) ∧
      (∀ x ∈ l₁, avg x.grades < avg (maxByAvg best l).grades) := by
  induction l generalizing best with
  | nil =>
    refine ⟨[], [], rfl, ?_, by simp⟩
    intro x hx
    rw [List.mem_singleton] at hx
    subst hx
    exact le_refl _
  | cons s rest ih =>
    have hstep : maxByAvg best (s :: rest) =
        maxByAvg (if avg best.grades < avg s.grades then s else best) rest := rfl
    by_cases hcmp : avg best.grades < avg s.grades
    · rw [hstep, if_pos hcmp]
      obtain ⟨l₁, l₂, hsplit, hub, hlt⟩ := ih s
      have hsle : avg s.grades ≤ avg (maxByAvg s rest).grades :=
        hub s (List.mem_cons_self _ _)
      refine ⟨best :: l₁, l₂, ?_, ?_, ?_⟩
      · rw [List.cons_append, ← hsplit]
      · intro x hx
        rcases List.mem_cons.mp hx with hx | hx
        · subst hx
          exact le_trans (le_of_lt hcmp) hsle
        · exact hub x hx
      · intro x hx
        rcases List.mem_cons.mp hx with hx | hx
        · subst hx
          exact lt_of_lt_of_le hcmp hsle
        · exact hlt x hx
    · rw [hstep, if_neg hcmp]
      have hsle : avg s.grades ≤ avg best.grades := le_of_not_lt hcmp
      obtain ⟨l₁, l₂, hsplit, hub, hlt⟩ := ih best
      cases l₁ with
      | nil =>
        simp only [List.nil_append] at hsplit
        have hmb : maxByAvg best rest = best := (List.cons.injEq _ _ _ _).mp hsplit.symm |>.1
        have hrest : l₂ = rest := (List.cons.injEq _ _ _ _).mp hsplit.symm |>.2
        refine ⟨[], s :: rest, ?_, ?_, by simp⟩
        · rw [List.nil_append, hmb]
        · intro x hx
          rcases List.mem_cons.mp hx with hx | hx
          · subst hx
            exact hub _ (List.mem_cons_self _ _)
          · rcases List.mem_cons.mp hx with hx | hx
            · subst hx
              rw [hmb]
              exact hsle
            · exact hub x (List.mem_cons_of_mem _ hx)
      | cons b t =>
        have hb : b = best := by
          have := congrArg (fun u => u.head?) hsplit
          simpa using this.symm
        subst hb
        have hrest : rest = t ++ maxByAvg b rest :: l₂ := by
          have := congrArg List.tail hsplit
          simpa using this
        have hblt : avg b.grades < avg (maxByAvg b rest).grades :=
          hlt b (List.mem_cons_self _ _)
        refine ⟨b :: s :: t, l₂, ?_, ?_, ?_⟩
        · rw [List.cons_append, List.cons_append, ← hrest]
        · intro x hx
          rcases List.mem_cons.mp hx with hx | hx
          · subst hx
            exact hub x (List.mem_cons_self _ _)
          · rcases List.mem_cons.mp hx with hx | hx
            · subst hx
              exact le_trans hsle (hub b (List.mem_cons_self _ _))
            · exact hub x (List.mem_cons_of_mem _ hx)
        · intro x hx
          rcases List.mem_cons.mp hx with hx | hx
          · subst hx
            exact hblt
          · rcases List.mem_cons.mp hx with hx | hx
            · subst hx
              exact lt_of_le_of_lt hsle hblt
            · exact hlt x (List.mem_cons_of_mem _ hx)

/-- C4: on an empty registry the top-performer search signals
`noStudents`; when no student has a grade it signals `noGradesAvailable`;
otherwise it selects the first student (in registry order, among those
with grades) whose average is maximal — everything earlier has a strictly
smaller average, nothing has a larger one — and in particular for
`A=[80]`, `B=[80]` added in that order it returns `A`. -/
theorem find_top_performer_spec :
    (∀ students : List Student,
      (students = [] → find_top_performer students = .noStudents) ∧
      (students ≠ [] → students.filter (fun s => !s.grades.isEmpty) = [] →
        find_top_performer students = .noGradesAvailable) ∧
      (students.filter (fun s => !s.grades.isEmpty) ≠ [] →
        ∃ l₁ t l₂, students.filter (fun s => !s.grades.isEmpty) = l₁ ++ t :: l₂ ∧
          find_top_performer students = .top t.name (avg t.grades) ∧
          (∀ x ∈ students.filter (fun s => !s.grades.isEmpty),
            avg x.grades ≤ avg t.grades) ∧
          (∀ x ∈ l₁, avg x.grades < avg t.grades))) ∧
    find_top_performer [⟨"A", [80]⟩, ⟨"B", [80]⟩] = .top "A" 80 := by
  constructor
  · intro students
    refine ⟨?_, ?_, ?_⟩
    · rintro rfl
      rfl
    · intro hne hfil
      simp only [find_top_performer, find_top_performer_op, if_neg hne,
        top_scan_snd, hfil]
    · intro hfil
      have hne : students ≠ [] := by
        rintro rfl
        simp at hfil
      cases hf : students.filter (fun s => !s.grades.isEmpty) with
      | nil => exact absurd hf hfil
      | cons w ws =>
        have hres : find_top_performer students =
            .top (maxByAvg w ws).name (avg (maxByAvg w ws).grades) := by
          simp only [find_top_performer, find_top_performer_op, if_neg hne,
            top_scan_snd, hf]
        obtain ⟨l₁, l₂, hsplit, hub, hlt⟩ := maxByAvg_first w ws
        exact ⟨l₁, maxByAvg w ws, l₂, hsplit, hres, hub, hlt⟩
  · have e1 : avg [80] = 80 := by norm_num [avg]
    have hcmp : ¬ (avg (Student.mk "A" [80]).grades <
        avg (Student.mk "B" [80]).grades) := by
      norm_num [avg]
    simp [find_top_performer, find_top_performer_op, top_scan, maxByAvg,
      hcmp, e1]

/-- C4 witness: the selection part applied to a concrete registry where
only the first student has grades. -/
theorem find_top_performer_spec_witness :
    ∃ l₁ t l₂,
      ([⟨"X", [10]⟩, ⟨"Y", []⟩] : List Student).filter
          (fun s => !s.grades.isEmpty) = l₁ ++ t :: l₂ ∧
      find_top_performer [⟨"X", [10]⟩, ⟨"Y", []⟩] = .top t.name (avg t.grades) ∧
      (∀ x ∈ ([⟨"X", [10]⟩, ⟨"Y", []⟩] : List Student).filter
          (fun s => !s.grades.isEmpty), avg x.grades ≤ avg t.grades) ∧
      (∀ x ∈ l₁, avg x.grades < avg t.grades) :=
  (find_top_performer_spec.1 [⟨"X", [10]⟩, ⟨"Y", []⟩]).2.2 (by decide)

/-- C9: a menu line that does not parse as an integer, or parses outside
`{1..5}`, reports `invalidChoice`, leaves the registry unchanged and the
loop running; a line parsing to `5` terminates the loop cleanly. -/
theorem main_step_menu (students : List Student) (line : String)
    (nameInput : String) (tokenInput : List String) :
    (pyInt (pyStrip line) = none →
      main_step students line nameInput tokenInput =
        (students, .running, .invalidChoice)) ∧
    (∀ c : Int, pyInt (pyStrip line) = some c → (c < 1 ∨ 5 < c) →
      main_step students line nameInput tokenInput =
        (students, .running, .invalidChoice)) ∧
    (pyInt (pyStrip line) = some 5 →
      main_step students line nameInput tokenInput =
        (students, .exiting, .exited)) := by
  refine ⟨?_, ?_, ?_⟩
  · intro h
    simp [main_step, h]
  · intro c hc hout
    have h1 : c ≠ 1 := by omega
    have h2 : c ≠ 2 := by omega
    have h3 : c ≠ 3 := by omega
    have h4 : c ≠ 4 := by omega
    have h5 : c ≠ 5 := by omega
    simp [main_step, hc, h1, h2, h3, h4, h5]
  · intro h
    simp [main_step, h]

/-- C9 witness: a non-numeric line, the line `6`, and the line `5` on the
empty registry. -/
theorem main_step_menu_witness :
    main_step [] "abc" "" [] = ([], .running, .invalidChoice) ∧
    main_step [] " 6" "" [] = ([], .running, .invalidChoice) ∧
    main_step [] "5" "" [] = ([], .exiting, .exited) :=
  ⟨(main_step_menu [] "abc" "" []).1 (by decide),
   (main_step_menu [] " 6" "" []).2.1 6 (by decide) (by decide),
   (main_step_menu [] "5" "" []).2.2 (by decide)⟩

/-- Every grade accepted by the validation loop lies in `[0, 100]`. -/
theorem acceptedOf_range (l : List String) (g : Int)
    (h : g ∈ l.filterMap acceptedOf) : 0 ≤ g ∧ g ≤ 100 := by
  obtain ⟨t, ht, hacc⟩ := List.mem_filterMap.mp h
  unfold acceptedOf at hacc
  cases hp : pyInt (pyStrip t) with
  | none =>
    rw [hp] at hacc
    cases hacc
  | some w =>
    rw [hp] at hacc
    have hacc2 : (if 0 ≤ w ∧ w ≤ 100 then some w else none) = some g := hacc
    by_cases hr : 0 ≤ w ∧ w ≤ 100
    · rw [if_pos hr] at hacc2
      injection hacc2 with h2
      subst h2
      exact hr
    · rw [if_neg hr] at hacc2
      cases hacc2

/-- Strengthened reachability invariant: grades are in range, stored names
are trimmed, and the lowercased stored names are pairwise distinct. -/
theorem reachable_wf (students : List Student) (h : Reachable students) :
    (∀ s ∈ students, (∀ g ∈ s.grades, 0 ≤ g ∧ g ≤ 100) ∧ pyStrip s.name = s.name) ∧
    (students.map (fun s => pyLower s.name)).Pairwise (fun a b => a ≠ b) := by
  induction h with
  | init => simp
  | addStudent reg rawName hreach ih =>
    by_cases hempty : pyStrip rawName = ""
    · have hres : (add_new_student reg rawName).1 = reg := by
        simp [add_new_student, hempty]
      rw [hres]
      exact ih
    · cases hfind : find_student reg (pyStrip rawName) with
      | some s =>
        have hres : (add_new_student reg rawName).1 = reg := by
          simp [add_new_student, hempty, hfind]
        rw [hres]
        exact ih
      | none =>
        have hres : (add_new_student reg rawName).1 = reg ++ [⟨pyStrip rawName, []⟩] := by
          simp [add_new_student, hempty, hfind]
        rw [hres]
        obtain ⟨ih1, ih2⟩ := ih
        constructor
        · intro s hs
          rcases List.mem_append.mp hs with hs | hs
          · exact ih1 s hs
          · rw [List.mem_singleton] at hs
            subst hs
            exact ⟨by simp, pyStrip_idem rawName⟩
        · rw [List.map_append, List.pairwise_append]
          refine ⟨ih2, by simp, ?_⟩
          intro x hx y hy
          simp only [List.map_cons, List.map_nil, List.mem_singleton] at hy
          subst hy
          obtain ⟨s, hs, rfl⟩ := List.mem_map.mp hx
          have hno := find_student_eq_none reg (pyStrip rawName) hfind s hs
          rwa [pyStrip_idem] at hno
  | addGrades reg rawName tokens hreach ih =>
    by_cases hne : reg = []
    · subst hne
      have hres : (add_grades_for_student [] rawName tokens).1 = [] := rfl
      rw [hres]
      exact ih
    · cases hfind : find_student reg (pyStrip rawName) with
      | none =>
        have hres : (add_grades_for_student reg rawName tokens).1 = reg := by
          simp [add_grades_for_student, hne, hfind]
        rw [hres]
        exact ih
      | some s =>
        have hres : (add_grades_for_student reg rawName tokens).1 =
            updateFirst (nameMatches (pyStrip rawName))
              (fun t => { t with grades := (grade_loop tokens s.grades).1 }) reg := by
          simp [add_grades_for_student, hne, hfind]
        obtain ⟨l₁, l₂, hsplit, hupd, hbefore, hmatch⟩ :=
          updateFirst_split (nameMatches (pyStrip rawName))
            (fun t => { t with grades := (grade_loop tokens s.grades).1 }) reg s hfind
        rw [hres, hupd]
        obtain ⟨ih1, ih2⟩ := ih
        have hsmem : s ∈ reg := by
          rw [hsplit]
          exact List.mem_append_right _ (List.mem_cons_self _ _)
        constructor
        · intro t ht
          rcases List.mem_append.mp ht with ht | ht
          · exact ih1 t (by rw [hsplit]; exact List.mem_append_left _ ht)
          · rcases List.mem_cons.mp ht with ht | ht
            · subst ht
              refine ⟨?_, ?_⟩
              · intro g hg
                have hg2 : g ∈ s.grades ++ (nonSentinel tokens).filterMap acceptedOf := by
                  have := hg
                  rw [grade_loop_eq] at this
                  exact this
                rcases List.mem_append.mp hg2 with hgm | hgm
                · exact (ih1 s hsmem).1 g hgm
                · exact acceptedOf_range (nonSentinel tokens) g hgm
              · exact (ih1 s hsmem).2
            · exact ih1 t (by
                rw [hsplit]
                exact List.mem_append_right _ (List.mem_cons_of_mem _ ht))
        · have hnames : (l₁ ++ { s with grades := (grade_loop tokens s.grades).1 } :: l₂).map
              (fun t => pyLower t.name) = reg.map (fun t => pyLower t.name) := by
            rw [hsplit]
            simp
          rw [hnames]
          exact ih2

/-- C5: in every registry reachable from the empty one by `add_new_student`
and `add_grades_for_student` calls, every stored grade lies in `[0, 100]`
and no two records share a trimmed, lowercased name. -/
theorem registry_invariant (students : List Student) (h : Reachable students) :
    (∀ s ∈ students, ∀ g ∈ s.grades, 0 ≤ g ∧ g ≤ 100) ∧
    students.Pairwise
      (fun a b => pyLower (pyStrip a.name) ≠ pyLower (pyStrip b.name)) := by
  obtain ⟨h1, h2⟩ := reachable_wf students h
  refine ⟨fun s hs => (h1 s hs).1, ?_⟩
  have h2l : students.Pairwise (fun a b => pyLower a.name ≠ pyLower b.name) :=
    List.pairwise_map.mp h2
  refine h2l.imp_of_mem ?_
  intro a b ha hb hR
  rw [(h1 a ha).2, (h1 b hb).2]
  exact hR

/-- C5 witness: the registry obtained by adding `Ann` and then the grade
`50` for `ann`. -/
theorem registry_invariant_witness :
    (∀ s ∈ (add_grades_for_student (add_new_student [] "Ann").1 "ann"
        ["50", "done"]).1, ∀ g ∈ s.grades, 0 ≤ g ∧ g ≤ 100) ∧
    (add_grades_for_student (add_new_student [] "Ann").1 "ann"
        ["50", "done"]).1.Pairwise
      (fun a b => pyLower (pyStrip a.name) ≠ pyLower (pyStrip b.name)) :=
  registry_invariant _
    (Reachable.addGrades _ "ann" ["50", "done"]
      (Reachable.addStudent [] "Ann" Reachable.init))

example : pyStrip "  Bob " = "Bob" := by decide
example : pyInt "42" = some 42 := by decide
example : pyInt "-7" = some (-7) := by decide
example : pyInt "4x" = none := by decide
example : pyInt "1_0" = some 10 := by decide
example : pyInt "_1" = none := by decide
example : find_student [⟨"Bob", [1]⟩] " bOb " = some ⟨"Bob", [1]⟩ := by decide
example : find_student [⟨" Bob ", []⟩] "Bob" = none := by decide
